import Mathlib

/-!
# Verification development for the REBRANDER application (`app.py`)

The application rewrites branding inside office documents: it replaces
literal text via a find/replace mapping table, and replaces embedded images
whose perceptual hash is within a Hamming-distance threshold of a reference
("old logo") fingerprint by the bytes of a new logo.

This file gives a shallow embedding of the relevant parts of `app.py`:

* strings are modelled as `Str := List Char`, with Python-faithful
  implementations of `in` (substring test), `str.replace`, `str.lower`,
  `str.strip`, `str.splitlines` and `str.split(",", 1)`;
* image bytes are `Bytes := List Nat`; perceptual hashes are abstract `Nat`s;
* the external libraries (PIL decoding, `imagehash.phash`, the ImageMagick
  `convert` subprocess, and the `abs(h - old_h)` hash distance) are modelled
  by environments of oracle functions with `Option` results standing for
  exceptions: `Env` collapses the decode-and-hash chain into one step
  (faithful where one `try` covers the chain), while `EnvX` keeps
  `Image.open` and `imagehash.phash` separate because the docx loop's `try`
  covers only the former — its uncaught hash failures are modelled by an
  `Except`-valued docx loop;
* the docx OPC package is a store of parts keyed by part name (mirroring the
  fact that `python-docx` exposes one part object per part name, so that
  `rel._target` aliases the package part with the same name);
* a pptx slide is a list of shapes carrying an identity `sid` (mirroring
  Python object identity); `add_picture` creates a fresh object, modelled by
  a counter that stays above every existing identity;
* the xlsx stage re-zips the serialized workbook, modelled as a list of
  archive entries with an opaque compression-metadata field.
-/

/-! ## Strings, bytes, hashes -/

/-- Python strings, modelled as lists of characters. -/
abbrev Str := List Char

/-- Raw image payloads (`bytes` in Python). -/
abbrev Bytes := List Nat

/-- A perceptual hash value (`imagehash.ImageHash`), kept abstract. -/
abbrev Hash := Nat

/-- Coerce a Lean string literal into the model's string type. -/
def str (s : String) : Str := s.data

/-- `isPref pat s` holds when `pat` is a leading segment of `s`. -/
def isPref : Str → Str → Bool
  | [], _ => true
  | _ :: _, [] => false
  | a :: as, b :: bs => a == b && isPref as bs

/-- Python's `pat in s` substring test. -/
def containsSub : Str → Str → Bool
  | [], pat => isPref pat []
  | c :: cs, pat => isPref pat (c :: cs) || containsSub cs pat

/-- Python's `s.startswith(pat)`. -/
def strStartsWith (s pat : Str) : Bool := isPref pat s

/-- Python's `s.endswith(pat)`. -/
def strEndsWith (s pat : Str) : Bool := isPref pat.reverse s.reverse

/-- Python's `s.lower()`. -/
def strToLower (s : Str) : Str := s.map Char.toLower

/-- Python's `"".join(parts)`. -/
def strJoin (l : List Str) : Str := l.flatten

/-- Python's `s.replace(f, r)`: leftmost, non-overlapping, replaces every
occurrence; an empty pattern inserts `r` around every character. -/
def strReplace (s f r : Str) : Str :=
  match s with
  | [] => if f == [] then r else []
  | c :: cs =>
    if hf : f == [] then r ++ c :: strReplace cs f r
    else if isPref f (c :: cs) then r ++ strReplace ((c :: cs).drop f.length) f r
    else c :: strReplace cs f r
termination_by s.length
decreasing_by
  · simp
  · have hf' : f ≠ [] := by simpa using hf
    have h1 : 1 ≤ f.length := by
      cases f with
      | nil => exact absurd rfl hf'
      | cons x xs => simp
    simp [List.length_drop]
    omega
  · simp

/-- Characters stripped by Python's `str.strip()`. -/
def isSpaceChar (c : Char) : Bool :=
  c == ' ' || c == '\t' || c == '\n' || c == '\r' || c == '\x0b' || c == '\x0c'

/-- Python's `s.strip()`. -/
def strStrip (s : Str) : Str :=
  ((s.dropWhile isSpaceChar).reverse.dropWhile isSpaceChar).reverse

/-- Python's `s.splitlines()` restricted to `'\n'` terminators: splits at
every newline and drops a trailing empty piece. -/
def splitLines : Str → List Str
  | [] => []
  | c :: cs =>
    if c == '\n' then [] :: splitLines cs
    else
      match splitLines cs with
      | [] => [[c]]
      | l :: ls => (c :: l) :: ls

/-- Python's `line.split(",", 1)` viewed as a pair: `none` when the line has
no comma (a length-1 list, which makes `dict(...)` raise `ValueError`). -/
def splitFirstComma : Str → Option (Str × Str)
  | [] => none
  | c :: cs =>
    if c == ',' then some ([], cs)
    else (splitFirstComma cs).map (fun pr => (c :: pr.1, pr.2))

/-! ### Basic string lemmas -/

theorem isPref_nil_right {pat : Str} (h : isPref pat [] = true) : pat = [] := by
  cases pat with
  | nil => rfl
  | cons a as => simp [isPref] at h

theorem containsSub_nil {pat : Str} (h : containsSub [] pat = false) : pat ≠ [] := by
  intro hp
  subst hp
  simp [containsSub, isPref] at h

theorem containsSub_cons {c : Char} {cs pat : Str}
    (h : containsSub (c :: cs) pat = false) :
    isPref pat (c :: cs) = false ∧ containsSub cs pat = false := by
  simpa [containsSub] using h

theorem isPref_ne_nil {pat s : Str} (h : isPref pat s = false) : pat ≠ [] := by
  intro hp
  subst hp
  simp [isPref] at h

/-- If `f` does not occur in `s`, Python's `s.replace(f, r)` returns `s`. -/
theorem strReplace_of_not_contains {s f : Str} (r : Str)
    (h : containsSub s f = false) : strReplace s f r = s := by
  induction s with
  | nil =>
    have hf : f ≠ [] := containsSub_nil h
    unfold strReplace
    simp [hf]
  | cons c cs ih =>
    obtain ⟨h1, h2⟩ := containsSub_cons h
    have hf : f ≠ [] := isPref_ne_nil h1
    unfold strReplace
    simp [hf, h1, ih h2]

/-! ## External image services (`PIL`, `imagehash`, ImageMagick)

`app.py` calls out to three external facilities, all of which we model as
oracle functions:

* `wmf_to_png_blob` (lines 16-25) shells out to ImageMagick `convert`; a
  failure of the subprocess is an exception, modelled by `none`;
* `Image.open(BytesIO(raw))` decodes raw bytes into an image object, and
  `imagehash.phash(img)` fingerprints it; each step can raise;
* `abs(h - old_h)` is the Hamming distance between two fingerprints,
  a non-negative integer.

In the pptx loop (lines 127-142) and the xlsx loop (lines 167-177) one
`try` covers the whole open-and-hash chain, so a single `Option` for the
combined chain (`Env.phash`) is faithful there.  The docx loop is
different: its `try` (lines 79-83) covers only `Image.open`, while
`imagehash.phash` on line 85 runs outside any handler — that finer
structure is modelled by `EnvX` and the `Except`-valued docx loop below.
-/

structure Env where
  /-- `wmf_to_png_blob`: ImageMagick WMF rasterization; `none` = exception. -/
  wmfConvert : Bytes → Option Bytes
  /-- The combined chain `imagehash.phash(Image.open(BytesIO(raw)))`;
  `none` = either step raised.  Faithful wherever one `try` covers the
  whole chain (pptx, xlsx), and to the completed runs of the docx loop. -/
  phash : Bytes → Option Hash
  /-- `abs(h - old_h)`: hash distance. -/
  dist : Hash → Hash → Nat

/-- The external image services with `Image.open` and `imagehash.phash`
kept separate, as required to model the docx loop's exception structure.
An opened PIL image object is represented by its bytes. -/
structure EnvX where
  /-- `wmf_to_png_blob`; `none` = exception. -/
  wmfConvert : Bytes → Option Bytes
  /-- `Image.open(BytesIO(raw))`; `none` = decode exception. -/
  imageOpen : Bytes → Option Bytes
  /-- `imagehash.phash(img)` on an opened image; `none` = exception. -/
  phashImage : Bytes → Option Hash
  /-- `abs(h - old_h)`: hash distance. -/
  dist : Hash → Hash → Nat

/-- Collapse the two-step chain into the combined view: `phash` succeeds
exactly when `Image.open` and `imagehash.phash` both succeed. -/
def EnvX.toEnv (e : EnvX) : Env :=
  { wmfConvert := e.wmfConvert,
    phash := fun b => (e.imageOpen b).bind e.phashImage,
    dist := e.dist }

/-- Line 30: `HASH_THRESHOLD = 25`. -/
def HASH_THRESHOLD : Nat := 25

/-- Python's `min(l)` on a list of naturals: `none` on the empty list
(where Python would raise; the code guards with `if distances else None`). -/
def listMin : List Nat → Option Nat
  | [] => none
  | x :: xs => some (xs.foldl Nat.min x)

/-- The value `min(l)` is an element of `l`. -/
theorem listMin_mem {l : List Nat} {d : Nat} (h : listMin l = some d) : d ∈ l := by
  cases l with
  | nil => simp [listMin] at h
  | cons x xs =>
    simp only [listMin, Option.some.injEq] at h
    subst h
    have key : ∀ (ys : List Nat) (a : Nat), ys.foldl Nat.min a = a ∨ ys.foldl Nat.min a ∈ ys := by
      intro ys
      induction ys with
      | nil => intro a; exact Or.inl rfl
      | cons y ys ih =>
        intro a
        have heq : (y :: ys).foldl Nat.min a = ys.foldl Nat.min (Nat.min a y) := rfl
        rcases ih (Nat.min a y) with h1 | h1
        · have hmin : Nat.min a y = a ∨ Nat.min a y = y := by
            have h : Nat.min a y = min a y := rfl
            rw [h]
            exact min_choice a y
          rcases hmin with h2 | h2
          · exact Or.inl (by rw [heq, h1, h2])
          · refine Or.inr ?_
            rw [heq, h1, h2]
            exact List.mem_cons_self y ys
        · exact Or.inr (List.mem_cons_of_mem y (heq ▸ h1))
    rcases key xs x with h1 | h1
    · rw [h1]; exact List.mem_cons_self x xs
    · exact List.mem_cons_of_mem x h1

/-! ## docx image replacement (`replace_images_docx`, lines 59-100)

`doc.part.package.parts` exposes one `Part` object per OPC part name, and a
relationship's `_target` is that very object, so the package is modelled as
a store of parts addressed by part name.  The `for part in ...` loop runs
over the part list snapshotted at loop entry (blobs are mutated but no part
is ever added or removed), which we model by folding over the initial list
of part names and looking each one up in the evolving store.
-/

structure DocPart where
  partname : Str
  contentType : Str
  blob : Bytes
deriving DecidableEq, Repr

/-- One entry of `doc.part.rels`: its relationship type and the part name of
its `_target` part (target resolution goes through the store). -/
structure DocRel where
  reltype : Str
  targetPartname : Str
deriving DecidableEq, Repr

/-- `RELATIONSHIP_TYPE.IMAGE` from `docx.opc.constants`. -/
def RT_IMAGE : Str :=
  str "http://schemas.openxmlformats.org/officeDocument/2006/relationships/image"

/-- Resolve a part name in the package store (Python object lookup). -/
def findPart (store : List DocPart) (pn : Str) : Option DocPart :=
  store.find? (fun p => p.partname == pn)

/-- Mutate the part object named `pn` (in-place attribute assignment). -/
def updParts (store : List DocPart) (pn : Str) (f : DocPart → DocPart) : List DocPart :=
  store.map (fun p => if p.partname == pn then f p else p)

/-- Line 72 / 95: `part._content_type = ct`. -/
def setPartCtype (store : List DocPart) (pn : Str) (ct : Str) : List DocPart :=
  updParts store pn (fun p => { p with contentType := ct })

/-- Lines 94-95 / 99-100: `part._blob = b; part._content_type = ct`. -/
def setPartBlobCtype (store : List DocPart) (pn : Str) (b : Bytes) (ct : Str) :
    List DocPart :=
  updParts store pn (fun p => { p with blob := b, contentType := ct })

/-- Lines 97-100: the relationship-target update loop.  For every rel of
image type whose target's (lowercased) part name equals the current
(lowercased) part name, overwrite the target part's blob and content type. -/
def applyRels (rels : List DocRel) (pnameLow : Str) (nl : Bytes)
    (store : List DocPart) : List DocPart :=
  match rels with
  | [] => store
  | rel :: rest =>
    applyRels rest pnameLow nl
      (if rel.reltype == RT_IMAGE && strToLower rel.targetPartname == pnameLow then
        setPartBlobCtype store rel.targetPartname nl (str "image/png")
      else store)

/-- Lines 79-100: hash the (possibly converted) raw bytes, compare against
the reference hashes, and on a match overwrite part and rel targets.
This is the collapsed view over `Env` (one step for open-and-hash); it
describes the loop's completed runs — the exact exception placement of the
docx loop, where line 85 can raise uncaught, is `afterOpenE` below, and
`stepPartE_ok` links the two. -/
def afterHash (env : Env) (oh : List Hash) (nl : Bytes) (rels : List DocRel)
    (store : List DocPart) (pn : Str) (raw : Bytes) : List DocPart :=
  match env.phash raw with
  | none => store                     -- open or hash failed, image skipped
  | some h =>
    match listMin (oh.map (fun o => env.dist h o)) with
    | none => store                   -- line 87: distances empty, min_dist = None
    | some d =>
      if d ≤ HASH_THRESHOLD then      -- line 91
        applyRels rels (strToLower pn) nl
          (setPartBlobCtype store pn nl (str "image/png"))
      else store

/-- Lines 60-100: the body of the `for part in doc.part.package.parts` loop
for the part named `pn`. -/
def stepPart (env : Env) (oh : List Hash) (nl : Bytes) (rels : List DocRel)
    (store : List DocPart) (pn : Str) : List DocPart :=
  match findPart store pn with
  | none => store
  | some part =>
    if strStartsWith part.contentType (str "image/") then
      if strEndsWith (strToLower part.partname) (str ".wmf") then
        match env.wmfConvert part.blob with
        | none => store               -- lines 74-76: conversion failed, continue
        | some png =>
          -- line 72: content type is set *before* the match decision
          afterHash env oh nl rels (setPartCtype store pn (str "image/png")) pn png
      else afterHash env oh nl rels store pn part.blob
    else store                        -- lines 64-65: not an image part

/-- Lines 59-100: `replace_images_docx`. -/
def replace_images_docx (env : Env) (oh : List Hash) (nl : Bytes)
    (rels : List DocRel) (store : List DocPart) : List DocPart :=
  (store.map (fun p => p.partname)).foldl
    (fun s pn => stepPart env oh nl rels s pn) store

/-! ### Specification-level views of the per-part decision -/

/-- The raw bytes actually hashed for a part: WMF parts go through the
converter first (line 71), everything else is hashed as stored. -/
def convertedRaw (env : Env) (p : DocPart) : Option Bytes :=
  if strEndsWith (strToLower p.partname) (str ".wmf") then env.wmfConvert p.blob
  else some p.blob

/-- The fingerprint the loop computes for a part, when the whole
convert-decode-hash chain succeeds. -/
def docxFingerprint (env : Env) (p : DocPart) : Option Hash :=
  (convertedRaw env p).bind env.phash

/-- The match decision of lines 86-91 for a single part. -/
def docxMatch (env : Env) (oh : List Hash) (p : DocPart) : Bool :=
  strStartsWith p.contentType (str "image/") &&
    (match docxFingerprint env p with
     | none => false
     | some h =>
       match listMin (oh.map (fun o => env.dist h o)) with
       | none => false
       | some d => d ≤ HASH_THRESHOLD)

/-- Whether the loop mutates the part's content type during fingerprinting
(line 72): an image-typed `.wmf` part whose conversion succeeds. -/
def wmfConverted (env : Env) (p : DocPart) : Bool :=
  strStartsWith p.contentType (str "image/") &&
    strEndsWith (strToLower p.partname) (str ".wmf") &&
    (env.wmfConvert p.blob).isSome

/-- The state of a part after its own loop iteration. -/
def stepResultPart (env : Env) (oh : List Hash) (nl : Bytes) (p : DocPart) : DocPart :=
  if docxMatch env oh p then ⟨p.partname, str "image/png", nl⟩
  else if wmfConverted env p then ⟨p.partname, str "image/png", p.blob⟩
  else p

/-! ### The docx loop with its exact exception structure

In `replace_images_docx` the `try` at lines 79-83 covers only
`img = Image.open(BytesIO(raw))`; the call `h = imagehash.phash(img)` on
line 85 runs outside it, and no handler exists in `replace_images_docx`,
`process_docx`, or the batch loop (lines 222-234).  So a hash-time
exception aborts the document and the whole batch.  `Except.error ()`
models such an uncaught exception escaping the loop. -/

/-- Lines 79-100 with the real `try` placement: `Image.open` caught
(lines 81-83, continue), `imagehash.phash` uncaught (line 85). -/
def afterOpenE (e : EnvX) (oh : List Hash) (nl : Bytes) (rels : List DocRel)
    (store : List DocPart) (pn : Str) (raw : Bytes) :
    Except Unit (List DocPart) :=
  match e.imageOpen raw with
  | none => .ok store                 -- lines 81-83: "Cannot open image", continue
  | some img =>
    match e.phashImage img with
    | none => .error ()               -- line 85 raises outside any handler
    | some h =>
      .ok (match listMin (oh.map (fun o => e.dist h o)) with
        | none => store
        | some d =>
          if d ≤ HASH_THRESHOLD then
            applyRels rels (strToLower pn) nl
              (setPartBlobCtype store pn nl (str "image/png"))
          else store)

/-- Lines 60-100, exception-exact loop body. -/
def stepPartE (e : EnvX) (oh : List Hash) (nl : Bytes) (rels : List DocRel)
    (store : List DocPart) (pn : Str) : Except Unit (List DocPart) :=
  match findPart store pn with
  | none => .ok store
  | some part =>
    if strStartsWith part.contentType (str "image/") then
      if strEndsWith (strToLower part.partname) (str ".wmf") then
        match e.wmfConvert part.blob with
        | none => .ok store           -- lines 74-76: conversion failed, continue
        | some png =>
          afterOpenE e oh nl rels (setPartCtype store pn (str "image/png")) pn png
      else afterOpenE e oh nl rels store pn part.blob
    else .ok store

/-- One fold step of the exception-exact loop: an uncaught exception from
an earlier iteration skips all later iterations. -/
def stepAccE (e : EnvX) (oh : List Hash) (nl : Bytes) (rels : List DocRel)
    (acc : Except Unit (List DocPart)) (pn : Str) : Except Unit (List DocPart) :=
  match acc with
  | .error u => .error u
  | .ok s => stepPartE e oh nl rels s pn

/-- Lines 59-100, exception-exact: an uncaught exception from one part's
iteration aborts the remaining iterations and escapes the function. -/
def replace_images_docxE (e : EnvX) (oh : List Hash) (nl : Bytes)
    (rels : List DocRel) (store : List DocPart) : Except Unit (List DocPart) :=
  (store.map (fun p => p.partname)).foldl (stepAccE e oh nl rels) (.ok store)

/-! ## docx text replacement (`replace_text_docx`, lines 46-57)

A paragraph is its list of runs (`p.text` is their concatenation); a table
cell is its list of paragraphs (`cell.text` joins paragraph texts with
newlines, and assigning `cell.text` collapses the cell to a single
paragraph containing a single run). -/

/-- A table cell: paragraphs, each a list of runs. -/
abbrev Cell := List (List Str)

/-- Lines 48-51: one `(find, replace)` pair applied to a paragraph: if the
find string occurs in the paragraph's aggregate text, every run's text is
rewritten run-by-run. -/
def paraStep (runs : List Str) (fr : Str × Str) : List Str :=
  if containsSub (strJoin runs) fr.1 then
    runs.map (fun t => strReplace t fr.1 fr.2)
  else runs

/-- Lines 47-51: all mapping pairs applied to one paragraph, in order. -/
def replacePara (m : List (Str × Str)) (runs : List Str) : List Str :=
  m.foldl paraStep runs

/-- `cell.text` (python-docx): paragraph texts joined by newlines. -/
def cellText (cell : Cell) : Str :=
  List.intercalate (str "\n") (cell.map strJoin)

/-- Lines 55-57: one pair applied to a cell: if the find string occurs in
the cell's aggregate text, `cell.text = cell.text.replace(...)` replaces the
whole cell content by one paragraph holding one run. -/
def cellStep (cell : Cell) (fr : Str × Str) : Cell :=
  if containsSub (cellText cell) fr.1 then
    [[strReplace (cellText cell) fr.1 fr.2]]
  else cell

/-- Lines 52-57 for a single cell: all mapping pairs in order. -/
def replaceCell (m : List (Str × Str)) (cell : Cell) : Cell :=
  m.foldl cellStep cell

/-- The textual content of a Word document: its paragraphs and its tables
(tables → rows → cells). -/
structure DocxDoc where
  paragraphs : List (List Str)
  tables : List (List (List Cell))
deriving DecidableEq, Repr

/-- Lines 46-57: `replace_text_docx`. -/
def replace_text_docx (m : List (Str × Str)) (doc : DocxDoc) : DocxDoc :=
  { paragraphs := doc.paragraphs.map (fun runs => replacePara m runs),
    tables := doc.tables.map (fun t => t.map (fun row => row.map (fun c => replaceCell m c))) }

/-! ## pptx processing (`process_pptx`, lines 115-146)

Shapes carry an identity `sid` standing for Python object identity; slide
mutation (run text assignment, `_spTree.remove`, `add_picture`) acts on the
slide's current shape list through that identity.  `add_picture` creates a
fresh shape object, modelled by a counter kept strictly above every
identity in the slide.  The `for shape in slide.shapes` loop runs over the
shapes enumerated at loop entry. -/

structure Geom where
  left : Int
  top : Int
  width : Int
  height : Int
deriving DecidableEq, Repr

inductive SKind where
  /-- a `MSO_SHAPE_TYPE.PICTURE` shape: its image blob and geometry -/
  | pic (blob : Bytes) (g : Geom)
  /-- a shape with a text frame: the texts of its runs -/
  | txt (runs : List Str)
  /-- any other shape -/
  | other
deriving DecidableEq, Repr

structure PShape where
  sid : Nat
  kind : SKind
deriving DecidableEq, Repr

/-- Lines 123-124: all mapping pairs folded over one run's text
(`run.text = run.text.replace(find, replace)`, no containment guard). -/
def pptxRunStep (m : List (Str × Str)) (t : Str) : Str :=
  m.foldl (fun acc fr => strReplace acc fr.1 fr.2) t

/-- In-place mutation of the shape object with identity `i`. -/
def updateShape (cur : List PShape) (i : Nat) (k : SKind) : List PShape :=
  cur.map (fun x => if x.sid == i then ⟨i, k⟩ else x)

/-- Line 136: `slide.shapes._spTree.remove(shape._element)`. -/
def removeShape (cur : List PShape) (i : Nat) : List PShape :=
  cur.filter (fun x => x.sid != i)

/-- Lines 118-142: the body of the shape loop, acting on the current shape
list together with the fresh-identity counter. -/
def slideStep (env : Env) (m : List (Str × Str)) (oh : List Hash) (nl : Bytes)
    (st : List PShape × Nat) (s : PShape) : List PShape × Nat :=
  match s.kind with
  | .txt runs =>
    (updateShape st.1 s.sid (.txt (runs.map (fun t => pptxRunStep m t))), st.2)
  | .other => st
  | .pic b g =>
    match env.phash b with
    | none => st                      -- lines 140-142: exception, continue
    | some h =>
      match listMin (oh.map (fun o => env.dist h o)) with
      | none => st                    -- line 131: min_dist = None
      | some d =>
        if d ≤ HASH_THRESHOLD then    -- line 133
          -- lines 135-139: capture geometry, remove the shape, add the new
          -- picture (a fresh object) with the captured geometry
          (removeShape st.1 s.sid ++ [⟨st.2, .pic nl g⟩], st.2 + 1)
        else st

/-- A fresh identity bound: strictly above every shape identity on the slide. -/
def nextSid (slide : List PShape) : Nat :=
  (slide.map (fun s => s.sid)).foldl Nat.max 0 + 1

/-- Lines 117-142 for one slide. -/
def processSlide (env : Env) (m : List (Str × Str)) (oh : List Hash) (nl : Bytes)
    (slide : List PShape) : List PShape :=
  (slide.foldl (fun st s => slideStep env m oh nl st s) (slide, nextSid slide)).1

/-- Lines 115-146: `process_pptx` over the document's slides (the
replacement picture is added to `prs.slides[slide_idx-1]`, i.e. the same
slide the match was found on). -/
def process_pptx (env : Env) (m : List (Str × Str)) (oh : List Hash) (nl : Bytes)
    (slides : List (List PShape)) : List (List PShape) :=
  slides.map (fun slide => processSlide env m oh nl slide)

/-! ## xlsx media replacement (`process_excel`, lines 158-180)

After the text pass, the workbook is serialized and re-zipped entry by
entry.  An archive entry carries its name, its bytes, and an opaque `meta`
standing for the `ZipInfo` compression metadata that `writestr(item, data)`
preserves. -/

structure ZEntry where
  filename : Str
  data : Bytes
  meta : Nat
deriving DecidableEq, Repr

/-- Lines 164-178: the body of the re-zip loop for one archive entry. -/
def processEntry (env : Env) (oh : List Hash) (nl : Bytes) (e : ZEntry) : ZEntry :=
  if strStartsWith e.filename (str "xl/media/") && e.data != [] then
    match env.phash e.data with
    | none => e                       -- lines 176-177: exception, keep data
    | some h =>
      match listMin (oh.map (fun o => env.dist h o)) with
      | none => e                     -- line 171: min_dist = None
      | some d =>
        if d ≤ HASH_THRESHOLD then { e with data := nl } else e  -- lines 173-175
  else e

/-- Lines 163-178: every entry of the serialized package is written to the
output archive, media entries possibly with replaced bytes. -/
def process_excel_zip (env : Env) (oh : List Hash) (nl : Bytes)
    (ar : List ZEntry) : List ZEntry :=
  ar.map (fun e => processEntry env oh nl e)

/-! ## Mapping-table parsing (line 208)

`mappings = dict(line.split(",",1) for line in mapping_text.splitlines()
if line.strip())`.  A generator element of length 1 (a non-blank line with
no comma) makes `dict(...)` raise `ValueError`, modelled as `none`. -/

/-- Evaluate the generator left to right, failing as `dict` does on a
length-1 split result. -/
def optMapM (f : Str → Option (Str × Str)) : List Str → Option (List (Str × Str))
  | [] => some []
  | x :: xs =>
    match f x, optMapM f xs with
    | some y, some ys => some (y :: ys)
    | _, _ => none

/-- `dict` insertion: a later pair with an already-present key overwrites
that key's value in place. -/
def dictInsert (d : List (Str × Str)) (k v : Str) : List (Str × Str) :=
  if d.any (fun kv => kv.1 == k) then
    d.map (fun kv => if kv.1 == k then (k, v) else kv)
  else d ++ [(k, v)]

/-- Line 208: parse the mapping text area into the mapping table. -/
def parse_mappings (text : Str) : Option (List (Str × Str)) :=
  (optMapM splitFirstComma
      ((splitLines text).filter (fun l => !(strStrip l).isEmpty))).map
    (fun prs => prs.foldl (fun d kv => dictInsert d kv.1 kv.2) [])

/-! ## Store lemmas for the docx package -/

theorem findPart_partname {store : List DocPart} {pn : Str} {q : DocPart}
    (h : findPart store pn = some q) : q.partname = pn := by
  unfold findPart at h
  have h2 := List.find?_some h
  exact eq_of_beq h2

theorem findPart_mem {store : List DocPart} {pn : Str} {q : DocPart}
    (h : findPart store pn = some q) : q ∈ store := by
  unfold findPart at h
  exact List.mem_of_find?_eq_some h

theorem findPart_updParts (store : List DocPart) (pn : Str) (f : DocPart → DocPart)
    (hf : ∀ p, (f p).partname = p.partname) (nm : Str) :
    findPart (updParts store pn f) nm
      = (findPart store nm).map (fun p => if p.partname == pn then f p else p) := by
  induction store with
  | nil => rfl
  | cons a tl ih =>
    have hhead : (if a.partname == pn then f a else a).partname = a.partname := by
      split
      · exact hf a
      · rfl
    show findPart ((if a.partname == pn then f a else a) :: updParts tl pn f) nm = _
    unfold findPart
    by_cases hnm : a.partname = nm
    · have h1 : ((if a.partname == pn then f a else a).partname == nm) = true :=
        beq_iff_eq.mpr (by rw [hhead, hnm])
      have h2 : (a.partname == nm) = true := beq_iff_eq.mpr hnm
      simp only [List.find?, h1, h2]
      rfl
    · have h1 : ((if a.partname == pn then f a else a).partname == nm) = false := by
        rw [beq_eq_false_iff_ne, hhead]; exact hnm
      have h2 : (a.partname == nm) = false := by rw [beq_eq_false_iff_ne]; exact hnm
      simp only [List.find?, h1, h2]
      exact ih

theorem findPart_updParts_ne {store : List DocPart} {pn nm : Str}
    {f : DocPart → DocPart} (hf : ∀ p, (f p).partname = p.partname)
    (hne : nm ≠ pn) :
    findPart (updParts store pn f) nm = findPart store nm := by
  rw [findPart_updParts store pn f hf nm]
  cases h : findPart store nm with
  | none => rfl
  | some q =>
    have hq : q.partname = nm := findPart_partname h
    have hne2 : q.partname ≠ pn := by rw [hq]; exact hne
    simp [hne2]

theorem findPart_applyRels_ne {rels : List DocRel} {pl nm : Str} {nl : Bytes}
    {store : List DocPart} (h : strToLower nm ≠ pl) :
    findPart (applyRels rels pl nl store) nm = findPart store nm := by
  induction rels generalizing store with
  | nil => rfl
  | cons rel rest ih =>
    simp only [applyRels]
    rw [ih]
    split
    · rename_i hcond
      have htl : strToLower rel.targetPartname = pl :=
        eq_of_beq (Bool.and_elim_right hcond)
      have hne : nm ≠ rel.targetPartname := by
        intro he
        exact h (by rw [he, htl])
      exact findPart_updParts_ne (fun p => rfl) hne
    · rfl

/-- The rel-target loop leaves a part alone once it already holds the new
blob and content type (it only ever writes those very values). -/
theorem findPart_applyRels_stable {rels : List DocRel} {pl nm : Str} {nl : Bytes}
    {store : List DocPart} {q : DocPart} (hq : findPart store nm = some q)
    (hb : q.blob = nl) (hc : q.contentType = str "image/png") :
    findPart (applyRels rels pl nl store) nm = some q := by
  induction rels generalizing store with
  | nil => exact hq
  | cons rel rest ih =>
    simp only [applyRels]
    apply ih
    split
    · rw [setPartBlobCtype,
        findPart_updParts store rel.targetPartname
          (fun p => { p with blob := nl, contentType := str "image/png" })
          (fun p => rfl) nm,
        hq]
      cases hqp : q.partname == rel.targetPartname
      · have hne3 : q.partname ≠ rel.targetPartname := by simpa using hqp
        simp [hne3]
      · have heq3 : q.partname = rel.targetPartname := eq_of_beq hqp
        have hqeq : ({ q with blob := nl, contentType := str "image/png" } : DocPart) = q := by
          rw [← hb, ← hc]
        simp [heq3]
        rw [← heq3]
        exact hqeq
    · exact hq

/-! ## Per-part characterization of the docx loop body -/

/-- A loop iteration never touches a part whose lowercased name differs
from the processed part's. -/
theorem findPart_afterHash_ne {env : Env} {oh : List Hash} {nl : Bytes}
    {rels : List DocRel} {store : List DocPart} {pn nm : Str} {raw : Bytes}
    (h : strToLower nm ≠ strToLower pn) :
    findPart (afterHash env oh nl rels store pn raw) nm = findPart store nm := by
  have hne : nm ≠ pn := fun he => h (by rw [he])
  cases hph : env.phash raw with
  | none => simp [afterHash, hph]
  | some hsh =>
    cases hmin : listMin (oh.map (fun o => env.dist hsh o)) with
    | none => simp [afterHash, hph, hmin]
    | some d =>
      by_cases hd : d ≤ HASH_THRESHOLD
      · simp only [afterHash, hph, hmin, if_pos hd]
        rw [findPart_applyRels_ne h, setPartBlobCtype]
        exact findPart_updParts_ne (fun p => rfl) hne
      · simp [afterHash, hph, hmin, hd]

theorem findPart_stepPart_ne {env : Env} {oh : List Hash} {nl : Bytes}
    {rels : List DocRel} {store : List DocPart} {pn nm : Str}
    (h : strToLower nm ≠ strToLower pn) :
    findPart (stepPart env oh nl rels store pn) nm = findPart store nm := by
  have hne : nm ≠ pn := fun he => h (by rw [he])
  cases hfind : findPart store pn with
  | none => simp [stepPart, hfind]
  | some part =>
    cases himg : strStartsWith part.contentType (str "image/") with
    | false => simp [stepPart, hfind, himg]
    | true =>
      cases hwmf : strEndsWith (strToLower part.partname) (str ".wmf") with
      | false =>
        simp only [stepPart, hfind, himg, hwmf, Bool.false_eq_true, if_false, if_true]
        exact findPart_afterHash_ne h
      | true =>
        cases hconv : env.wmfConvert part.blob with
        | none => simp [stepPart, hfind, himg, hwmf, hconv]
        | some png =>
          simp only [stepPart, hfind, himg, hwmf, hconv, if_true]
          rw [findPart_afterHash_ne h, setPartCtype]
          exact findPart_updParts_ne (fun p => rfl) hne

/-- The loop iteration for a part's own name turns its store entry into
`stepResultPart`. -/
theorem findPart_stepPart_self {env : Env} {oh : List Hash} {nl : Bytes}
    {rels : List DocRel} {store : List DocPart} {pn : Str} {p : DocPart}
    (hp : findPart store pn = some p) :
    findPart (stepPart env oh nl rels store pn) pn
      = some (stepResultPart env oh nl p) := by
  have hpn : p.partname = pn := findPart_partname hp
  cases himg : strStartsWith p.contentType (str "image/") with
  | false =>
    simp only [stepPart, hp, himg, Bool.false_eq_true, if_false]
    simp [stepResultPart, docxMatch, wmfConverted, himg]
  | true =>
    cases hwmf : strEndsWith (strToLower p.partname) (str ".wmf") with
    | false =>
      simp only [stepPart, hp, himg, hwmf, Bool.false_eq_true, if_false, if_true]
      cases hph : env.phash p.blob with
      | none =>
        simp only [afterHash, hph]
        rw [hp]
        simp [stepResultPart, docxMatch, docxFingerprint, convertedRaw, wmfConverted,
          himg, hwmf, hph]
      | some hsh =>
        cases hmin : listMin (oh.map (fun o => env.dist hsh o)) with
        | none =>
          simp only [afterHash, hph, hmin]
          rw [hp]
          simp [stepResultPart, docxMatch, docxFingerprint, convertedRaw, wmfConverted,
            himg, hwmf, hph, hmin]
        | some d =>
          by_cases hd : d ≤ HASH_THRESHOLD
          · simp only [afterHash, hph, hmin, if_pos hd]
            have hp2 : findPart (setPartBlobCtype store pn nl (str "image/png")) pn
                = some ⟨p.partname, str "image/png", nl⟩ := by
              rw [setPartBlobCtype,
                findPart_updParts store pn
                  (fun q => { q with blob := nl, contentType := str "image/png" })
                  (fun q => rfl) pn, hp]
              simp [hpn]
            have hb2 : (⟨p.partname, str "image/png", nl⟩ : DocPart).blob = nl := rfl
            have hc2 : (⟨p.partname, str "image/png", nl⟩ : DocPart).contentType
                = str "image/png" := rfl
            rw [findPart_applyRels_stable hp2 hb2 hc2]
            simp [stepResultPart, docxMatch, docxFingerprint, convertedRaw,
              himg, hwmf, hph, hmin, hd]
          · simp only [afterHash, hph, hmin, if_neg hd]
            rw [hp]
            simp [stepResultPart, docxMatch, docxFingerprint, convertedRaw, wmfConverted,
              himg, hwmf, hph, hmin, hd]
    | true =>
      cases hconv : env.wmfConvert p.blob with
      | none =>
        simp only [stepPart, hp, himg, hwmf, hconv, if_true]
        simp [stepResultPart, docxMatch, docxFingerprint, convertedRaw, wmfConverted,
          himg, hwmf, hconv]
      | some png =>
        have hp1 : findPart (setPartCtype store pn (str "image/png")) pn
            = some { p with contentType := str "image/png" } := by
          rw [setPartCtype,
            findPart_updParts store pn (fun q => { q with contentType := str "image/png" })
              (fun q => rfl) pn, hp]
          simp [hpn]
        simp only [stepPart, hp, himg, hwmf, hconv, if_true]
        cases hph : env.phash png with
        | none =>
          simp only [afterHash, hph]
          rw [hp1]
          simp [stepResultPart, docxMatch, docxFingerprint, convertedRaw, wmfConverted,
            himg, hwmf, hconv, hph]
        | some hsh =>
          cases hmin : listMin (oh.map (fun o => env.dist hsh o)) with
          | none =>
            simp only [afterHash, hph, hmin]
            rw [hp1]
            simp [stepResultPart, docxMatch, docxFingerprint, convertedRaw, wmfConverted,
              himg, hwmf, hconv, hph, hmin]
          | some d =>
            by_cases hd : d ≤ HASH_THRESHOLD
            · simp only [afterHash, hph, hmin, if_pos hd]
              have hp2 : findPart
                  (setPartBlobCtype (setPartCtype store pn (str "image/png")) pn nl
                    (str "image/png")) pn
                  = some ⟨p.partname, str "image/png", nl⟩ := by
                rw [setPartBlobCtype,
                  findPart_updParts _ pn
                    (fun q => { q with blob := nl, contentType := str "image/png" })
                    (fun q => rfl) pn, hp1]
                simp [hpn]
              have hb2 : (⟨p.partname, str "image/png", nl⟩ : DocPart).blob = nl := rfl
              have hc2 : (⟨p.partname, str "image/png", nl⟩ : DocPart).contentType
                  = str "image/png" := rfl
              rw [findPart_applyRels_stable hp2 hb2 hc2]
              simp [stepResultPart, docxMatch, docxFingerprint, convertedRaw,
                himg, hwmf, hconv, hph, hmin, hd]
            · simp only [afterHash, hph, hmin, if_neg hd]
              rw [hp1]
              simp [stepResultPart, docxMatch, docxFingerprint, convertedRaw, wmfConverted,
                himg, hwmf, hconv, hph, hmin, hd]

/-! ## The full docx loop -/

theorem findPart_foldl_ne (env : Env) (oh : List Hash) (nl : Bytes)
    (rels : List DocRel) (names : List Str) :
    ∀ (store : List DocPart) (nm : Str),
      (∀ n ∈ names, strToLower nm ≠ strToLower n) →
      findPart (names.foldl (fun s pn => stepPart env oh nl rels s pn) store) nm
        = findPart store nm := by
  induction names with
  | nil => intro store nm _; rfl
  | cons a tl ih =>
    intro store nm h
    rw [List.foldl_cons]
    rw [ih _ nm (fun n hn => h n (List.mem_cons_of_mem a hn))]
    exact findPart_stepPart_ne (h a (List.mem_cons_self a tl))

/-- Auxiliary: extract the distinctness facts from the no-duplicate
hypothesis on lowercased part names, along a decomposition of the name
list around one name. -/
theorem lowNames_split {N1 N2 : List Str} {pn : Str}
    (h : ((N1 ++ pn :: N2).map strToLower).Nodup) :
    (∀ n ∈ N1, strToLower pn ≠ strToLower n) ∧
    (∀ n ∈ N2, strToLower pn ≠ strToLower n) := by
  rw [List.map_append, List.map_cons] at h
  rcases List.nodup_append.mp h with ⟨_, hcons, hdisj⟩
  have hnot2 : strToLower pn ∉ N2.map strToLower := (List.nodup_cons.mp hcons).1
  constructor
  · intro n hn he
    exact hdisj (he ▸ List.mem_map_of_mem strToLower hn) (List.mem_cons_self _ _)
  · intro n hn he
    exact hnot2 (he ▸ List.mem_map_of_mem strToLower hn)

/-- Main docx theorem: under distinct lowercased part names, the whole
`replace_images_docx` loop turns each part's store entry into
`stepResultPart`. -/
theorem replace_images_docx_entry {env : Env} {oh : List Hash} {nl : Bytes}
    {rels : List DocRel} {store : List DocPart} {p : DocPart}
    (hnd : (store.map (fun q => strToLower q.partname)).Nodup)
    (hp : findPart store p.partname = some p) :
    findPart (replace_images_docx env oh nl rels store) p.partname
      = some (stepResultPart env oh nl p) := by
  unfold replace_images_docx
  have hmem : p ∈ store := findPart_mem hp
  have hnames : p.partname ∈ store.map (fun q => q.partname) :=
    List.mem_map_of_mem _ hmem
  obtain ⟨N1, N2, hsplit⟩ := List.append_of_mem hnames
  have hlow : ((N1 ++ p.partname :: N2).map strToLower).Nodup := by
    rw [← hsplit, List.map_map]
    simpa [Function.comp] using hnd
  obtain ⟨h1, h2⟩ := lowNames_split hlow
  rw [hsplit, List.foldl_append, List.foldl_cons]
  rw [findPart_foldl_ne env oh nl rels N2 _ p.partname h2]
  have hmid : findPart
      (N1.foldl (fun s pn => stepPart env oh nl rels s pn) store) p.partname
      = some p := by
    rw [findPart_foldl_ne env oh nl rels N1 store p.partname h1]
    exact hp
  exact findPart_stepPart_self hmid

/-! ## Linking the exception-exact docx loop to the collapsed one

On every run that completes (no uncaught hash exception), the
exception-exact loop computes exactly what the collapsed loop over
`EnvX.toEnv` computes; the claims proved over `Env` describe those
completed runs. -/

theorem afterOpenE_ok {e : EnvX} {oh : List Hash} {nl : Bytes}
    {rels : List DocRel} {store : List DocPart} {pn : Str} {raw : Bytes}
    {out : List DocPart}
    (h : afterOpenE e oh nl rels store pn raw = .ok out) :
    afterHash (EnvX.toEnv e) oh nl rels store pn raw = out := by
  cases hop : e.imageOpen raw with
  | none =>
    have hph : (EnvX.toEnv e).phash raw = none := by simp [EnvX.toEnv, hop]
    simp only [afterOpenE, hop, Except.ok.injEq] at h
    simp [afterHash, hph, ← h]
  | some img =>
    cases hpi : e.phashImage img with
    | none => simp [afterOpenE, hop, hpi] at h
    | some hsh =>
      have hph : (EnvX.toEnv e).phash raw = some hsh := by
        simp [EnvX.toEnv, hop, hpi]
      have hdist : (EnvX.toEnv e).dist = e.dist := rfl
      simp only [afterOpenE, hop, hpi, Except.ok.injEq] at h
      simp only [afterHash, hph, hdist]
      exact h

theorem stepPartE_ok {e : EnvX} {oh : List Hash} {nl : Bytes}
    {rels : List DocRel} {store : List DocPart} {pn : Str}
    {out : List DocPart}
    (h : stepPartE e oh nl rels store pn = .ok out) :
    stepPart (EnvX.toEnv e) oh nl rels store pn = out := by
  cases hfind : findPart store pn with
  | none =>
    simp only [stepPartE, hfind, Except.ok.injEq] at h
    simp [stepPart, hfind, ← h]
  | some part =>
    cases himg : strStartsWith part.contentType (str "image/") with
    | false =>
      simp only [stepPartE, hfind, himg, Bool.false_eq_true, if_false,
        Except.ok.injEq] at h
      simp [stepPart, hfind, himg, ← h]
    | true =>
      cases hwmf : strEndsWith (strToLower part.partname) (str ".wmf") with
      | false =>
        simp only [stepPartE, hfind, himg, hwmf, Bool.false_eq_true,
          if_false, if_true] at h
        simp only [stepPart, hfind, himg, hwmf, Bool.false_eq_true,
          if_false, if_true]
        exact afterOpenE_ok h
      | true =>
        cases hconv : e.wmfConvert part.blob with
        | none =>
          simp only [stepPartE, hfind, himg, hwmf, hconv, if_true,
            Except.ok.injEq] at h
          simp [stepPart, EnvX.toEnv, hfind, himg, hwmf, hconv, ← h]
        | some png =>
          simp only [stepPartE, hfind, himg, hwmf, hconv, if_true] at h
          simp only [stepPart, EnvX.toEnv, hfind, himg, hwmf, hconv, if_true]
          exact afterOpenE_ok h

theorem foldlE_error (e : EnvX) (oh : List Hash) (nl : Bytes)
    (rels : List DocRel) :
    ∀ (l : List Str) (u : Unit),
      l.foldl (stepAccE e oh nl rels) (Except.error u)
        = (Except.error u : Except Unit (List DocPart)) := by
  intro l
  induction l with
  | nil => intro u; rfl
  | cons a tl ih =>
    intro u
    rw [List.foldl_cons]
    exact ih u

theorem replace_images_docxE_ok_agrees {e : EnvX} {oh : List Hash}
    {nl : Bytes} {rels : List DocRel} {store : List DocPart}
    {out : List DocPart}
    (h : replace_images_docxE e oh nl rels store = .ok out) :
    replace_images_docx (EnvX.toEnv e) oh nl rels store = out := by
  unfold replace_images_docxE at h
  unfold replace_images_docx
  have key : ∀ (names : List Str) (st res : List DocPart),
      names.foldl (stepAccE e oh nl rels) (Except.ok st) = .ok res →
      names.foldl (fun s pn => stepPart (EnvX.toEnv e) oh nl rels s pn) st
        = res := by
    intro names
    induction names with
    | nil =>
      intro st res hh
      simpa using hh
    | cons a tl ih =>
      intro st res hh
      rw [List.foldl_cons] at hh ⊢
      have hred : stepAccE e oh nl rels (Except.ok st) a
          = stepPartE e oh nl rels st a := rfl
      rw [hred] at hh
      cases hstep : stepPartE e oh nl rels st a with
      | error u =>
        rw [hstep, foldlE_error e oh nl rels tl u] at hh
        exact absurd hh (by simp)
      | ok s1 =>
        rw [hstep] at hh
        rw [stepPartE_ok hstep]
        exact ih s1 res hh
  exact key _ store out h

/-! ## Name and blob preservation in the docx loop -/

/-- The projection of a store to its part names. -/
def partNames (store : List DocPart) : List Str :=
  store.map (fun p => p.partname)

/-- The projection of a store to part names with their blobs. -/
def partBlobs (store : List DocPart) : List (Str × Bytes) :=
  store.map (fun p => (p.partname, p.blob))

theorem partNames_updParts {store : List DocPart} {pn : Str} {f : DocPart → DocPart}
    (hf : ∀ p, (f p).partname = p.partname) :
    partNames (updParts store pn f) = partNames store := by
  unfold partNames updParts
  rw [List.map_map]
  apply List.map_congr_left
  intro a _
  simp only [Function.comp]
  split
  · exact hf a
  · rfl

theorem partNames_applyRels {rels : List DocRel} {pl : Str} {nl : Bytes}
    {store : List DocPart} :
    partNames (applyRels rels pl nl store) = partNames store := by
  induction rels generalizing store with
  | nil => rfl
  | cons rel rest ih =>
    simp only [applyRels]
    rw [ih]
    split
    · exact partNames_updParts (fun p => rfl)
    · rfl

theorem partNames_afterHash {env : Env} {oh : List Hash} {nl : Bytes}
    {rels : List DocRel} {store : List DocPart} {pn : Str} {raw : Bytes} :
    partNames (afterHash env oh nl rels store pn raw) = partNames store := by
  cases hph : env.phash raw with
  | none => simp [afterHash, hph]
  | some hsh =>
    cases hmin : listMin (oh.map (fun o => env.dist hsh o)) with
    | none => simp [afterHash, hph, hmin]
    | some d =>
      by_cases hd : d ≤ HASH_THRESHOLD
      · simp only [afterHash, hph, hmin, if_pos hd]
        rw [partNames_applyRels, setPartBlobCtype]
        exact partNames_updParts (fun p => rfl)
      · simp [afterHash, hph, hmin, hd]

theorem partNames_stepPart {env : Env} {oh : List Hash} {nl : Bytes}
    {rels : List DocRel} {store : List DocPart} {pn : Str} :
    partNames (stepPart env oh nl rels store pn) = partNames store := by
  cases hfind : findPart store pn with
  | none => simp [stepPart, hfind]
  | some part =>
    cases himg : strStartsWith part.contentType (str "image/") with
    | false => simp [stepPart, hfind, himg]
    | true =>
      cases hwmf : strEndsWith (strToLower part.partname) (str ".wmf") with
      | false =>
        simp only [stepPart, hfind, himg, hwmf, Bool.false_eq_true, if_false, if_true]
        exact partNames_afterHash
      | true =>
        cases hconv : env.wmfConvert part.blob with
        | none => simp [stepPart, hfind, himg, hwmf, hconv]
        | some png =>
          simp only [stepPart, hfind, himg, hwmf, hconv, if_true]
          rw [partNames_afterHash, setPartCtype]
          exact partNames_updParts (fun p => rfl)

theorem partNames_replace_images {env : Env} {oh : List Hash} {nl : Bytes}
    {rels : List DocRel} {store : List DocPart} :
    partNames (replace_images_docx env oh nl rels store) = partNames store := by
  unfold replace_images_docx
  have key : ∀ (names : List Str) (st : List DocPart),
      partNames (names.foldl (fun s pn => stepPart env oh nl rels s pn) st)
        = partNames st := by
    intro names
    induction names with
    | nil => intro st; rfl
    | cons a tl ih =>
      intro st
      rw [List.foldl_cons, ih]
      exact partNames_stepPart
  exact key _ store

/-- With an empty reference set no branch of the loop body ever touches a
blob: only the WMF content-type assignment can fire. -/
theorem partBlobs_updParts {store : List DocPart} {pn : Str} {f : DocPart → DocPart}
    (hf : ∀ p, (f p).partname = p.partname ∧ (f p).blob = p.blob) :
    partBlobs (updParts store pn f) = partBlobs store := by
  unfold partBlobs updParts
  rw [List.map_map]
  apply List.map_congr_left
  intro a _
  simp only [Function.comp]
  split
  · rw [(hf a).1, (hf a).2]
  · rfl

theorem partBlobs_afterHash_empty {env : Env} {nl : Bytes} {rels : List DocRel}
    {store : List DocPart} {pn : Str} {raw : Bytes} :
    partBlobs (afterHash env [] nl rels store pn raw) = partBlobs store := by
  cases hph : env.phash raw with
  | none => simp [afterHash, hph]
  | some hsh => simp [afterHash, hph, listMin]

theorem partBlobs_stepPart_empty {env : Env} {nl : Bytes} {rels : List DocRel}
    {store : List DocPart} {pn : Str} :
    partBlobs (stepPart env [] nl rels store pn) = partBlobs store := by
  cases hfind : findPart store pn with
  | none => simp [stepPart, hfind]
  | some part =>
    cases himg : strStartsWith part.contentType (str "image/") with
    | false => simp [stepPart, hfind, himg]
    | true =>
      cases hwmf : strEndsWith (strToLower part.partname) (str ".wmf") with
      | false =>
        simp only [stepPart, hfind, himg, hwmf, Bool.false_eq_true, if_false, if_true]
        exact partBlobs_afterHash_empty
      | true =>
        cases hconv : env.wmfConvert part.blob with
        | none => simp [stepPart, hfind, himg, hwmf, hconv]
        | some png =>
          simp only [stepPart, hfind, himg, hwmf, hconv, if_true]
          rw [partBlobs_afterHash_empty, setPartCtype]
          exact partBlobs_updParts (fun p => ⟨rfl, rfl⟩)

theorem partBlobs_replace_images_empty {env : Env} {nl : Bytes}
    {rels : List DocRel} {store : List DocPart} :
    partBlobs (replace_images_docx env [] nl rels store) = partBlobs store := by
  unfold replace_images_docx
  have key : ∀ (names : List Str) (st : List DocPart),
      partBlobs (names.foldl (fun s pn => stepPart env [] nl rels s pn) st)
        = partBlobs st := by
    intro names
    induction names with
    | nil => intro st; rfl
    | cons a tl ih =>
      intro st
      rw [List.foldl_cons, ih]
      exact partBlobs_stepPart_empty
  exact key _ store

/-- With an empty reference set the match decision is always negative. -/
theorem docxMatch_empty {env : Env} {p : DocPart} : docxMatch env [] p = false := by
  cases hfp : docxFingerprint env p with
  | none => simp [docxMatch, hfp]
  | some h => simp [docxMatch, hfp, listMin]

/-! ## Slide lemmas for the pptx loop -/

theorem mem_updateShape_of_ne {cur : List PShape} {i : Nat} {k' : SKind}
    {x : PShape} (hx : x ∈ cur) (hne : x.sid ≠ i) : x ∈ updateShape cur i k' := by
  unfold updateShape
  have hfx : (if x.sid == i then (⟨i, k'⟩ : PShape) else x) = x := by
    rw [if_neg]
    simp [hne]
  exact hfx ▸ List.mem_map_of_mem _ hx

theorem mem_removeShape_of_ne {cur : List PShape} {i : Nat} {x : PShape}
    (hx : x ∈ cur) (hne : x.sid ≠ i) : x ∈ removeShape cur i := by
  unfold removeShape
  rw [List.mem_filter]
  exact ⟨hx, by simp [hne]⟩

/-- The loop body either keeps the state, rewrites one text shape in place,
or removes the processed picture and appends a freshly-identified one. -/
theorem slideStep_cases (env : Env) (m : List (Str × Str)) (oh : List Hash)
    (nl : Bytes) (st : List PShape × Nat) (s : PShape) :
    slideStep env m oh nl st s = st
    ∨ (∃ runs, s.kind = .txt runs ∧
        slideStep env m oh nl st s
          = (updateShape st.1 s.sid (.txt (runs.map (fun t => pptxRunStep m t))), st.2))
    ∨ (∃ b g, s.kind = .pic b g ∧
        slideStep env m oh nl st s
          = (removeShape st.1 s.sid ++ [⟨st.2, .pic nl g⟩], st.2 + 1)) := by
  cases hk : s.kind with
  | txt runs => exact Or.inr (Or.inl ⟨runs, rfl, by simp [slideStep, hk]⟩)
  | other => exact Or.inl (by simp [slideStep, hk])
  | pic b g =>
    cases hph : env.phash b with
    | none => exact Or.inl (by simp [slideStep, hk, hph])
    | some hsh =>
      cases hmin : listMin (oh.map (fun o => env.dist hsh o)) with
      | none => exact Or.inl (by simp [slideStep, hk, hph, hmin])
      | some d =>
        by_cases hd : d ≤ HASH_THRESHOLD
        · exact Or.inr (Or.inr ⟨b, g, rfl, by simp [slideStep, hk, hph, hmin, hd]⟩)
        · exact Or.inl (by simp [slideStep, hk, hph, hmin, hd])

/-- A shape stays in the slide through loop iterations for shapes with a
different identity. -/
theorem pptx_mem_fold (env : Env) (m : List (Str × Str)) (oh : List Hash)
    (nl : Bytes) (L : List PShape) :
    ∀ (st : List PShape × Nat) (j : Nat) (k : SKind),
      (⟨j, k⟩ : PShape) ∈ st.1 → (∀ x ∈ L, x.sid ≠ j) →
      (⟨j, k⟩ : PShape) ∈ (L.foldl (fun a x => slideStep env m oh nl a x) st).1 := by
  induction L with
  | nil => intro st j k hmem _; exact hmem
  | cons s tl ih =>
    intro st j k hmem hall
    rw [List.foldl_cons]
    have hs : s.sid ≠ j := hall s (List.mem_cons_self s tl)
    have hall2 : ∀ x ∈ tl, x.sid ≠ j := fun x hx => hall x (List.mem_cons_of_mem s hx)
    apply ih _ j k _ hall2
    rcases slideStep_cases env m oh nl st s with heq | ⟨runs, _, heq⟩ | ⟨b, g, _, heq⟩
    · rw [heq]; exact hmem
    · rw [heq]
      exact mem_updateShape_of_ne hmem (fun he => hs he.symm)
    · rw [heq]
      exact List.mem_append_left _
        (mem_removeShape_of_ne hmem (fun he => hs he.symm))

/-- The fresh-identity counter never decreases. -/
theorem pptx_counter_mono (env : Env) (m : List (Str × Str)) (oh : List Hash)
    (nl : Bytes) (L : List PShape) :
    ∀ st : List PShape × Nat,
      st.2 ≤ (L.foldl (fun a x => slideStep env m oh nl a x) st).2 := by
  induction L with
  | nil => intro st; exact Nat.le_refl _
  | cons s tl ih =>
    intro st
    rw [List.foldl_cons]
    refine Nat.le_trans ?_ (ih _)
    rcases slideStep_cases env m oh nl st s with heq | ⟨runs, _, heq⟩ | ⟨b, g, _, heq⟩
    · rw [heq]
    · rw [heq]
    · rw [heq]
      exact Nat.le_succ _

/-- Once an identity is absent from the slide and below the counter, it
stays absent: text rewrites keep identities, removals only shrink, and
added pictures take fresh identities. -/
theorem pptx_fold_notSid (env : Env) (m : List (Str × Str)) (oh : List Hash)
    (nl : Bytes) (L : List PShape) :
    ∀ (st : List PShape × Nat) (j : Nat),
      (∀ x ∈ st.1, x.sid ≠ j) → j < st.2 →
      (∀ x ∈ (L.foldl (fun a x => slideStep env m oh nl a x) st).1, x.sid ≠ j)
        ∧ j < (L.foldl (fun a x => slideStep env m oh nl a x) st).2 := by
  induction L with
  | nil => intro st j h1 h2; exact ⟨h1, h2⟩
  | cons s tl ih =>
    intro st j h1 h2
    rw [List.foldl_cons]
    have hstep : (∀ x ∈ (slideStep env m oh nl st s).1, x.sid ≠ j)
        ∧ j < (slideStep env m oh nl st s).2 := by
      rcases slideStep_cases env m oh nl st s with heq | ⟨runs, _, heq⟩ | ⟨b, g, _, heq⟩
      · rw [heq]; exact ⟨h1, h2⟩
      · rw [heq]
        refine ⟨?_, h2⟩
        intro x hx
        rcases List.mem_map.mp hx with ⟨y, hy, hxy⟩
        by_cases hys : y.sid = s.sid
        · have hxe : (⟨s.sid, SKind.txt (runs.map (fun t => pptxRunStep m t))⟩ : PShape)
              = x := by
            rw [← hxy, if_pos (beq_iff_eq.mpr hys)]
          rw [← hxe]
          show s.sid ≠ j
          rw [← hys]
          exact h1 y hy
        · have hxe : y = x := by rw [← hxy, if_neg (by simp [hys])]
          rw [← hxe]
          exact h1 y hy
      · rw [heq]
        refine ⟨?_, Nat.lt_succ_of_lt h2⟩
        intro x hx
        rcases List.mem_append.mp hx with hx1 | hx1
        · unfold removeShape at hx1
          exact h1 x (List.mem_of_mem_filter hx1)
        · rcases List.mem_singleton.mp hx1 with rfl
          show st.2 ≠ j
          omega
    exact ih _ j hstep.1 hstep.2

theorem foldl_max_init_le : ∀ (l : List Nat) (a : Nat), a ≤ l.foldl Nat.max a := by
  intro l
  induction l with
  | nil => intro a; exact Nat.le_refl _
  | cons y ys ih =>
    intro a
    calc a ≤ Nat.max a y := Nat.le_max_left a y
    _ ≤ ys.foldl Nat.max (Nat.max a y) := ih (Nat.max a y)

theorem le_foldl_max : ∀ (l : List Nat) (a x : Nat), x ∈ l → x ≤ l.foldl Nat.max a := by
  intro l
  induction l with
  | nil => intro a x hx; exact absurd hx (List.not_mem_nil x)
  | cons y ys ih =>
    intro a x hx
    rcases List.mem_cons.mp hx with rfl | hx2
    · calc x ≤ Nat.max a x := Nat.le_max_right a x
      _ ≤ ys.foldl Nat.max (Nat.max a x) := foldl_max_init_le ys _
    · exact ih (Nat.max a y) x hx2

theorem sid_lt_nextSid {slide : List PShape} {s : PShape} (hs : s ∈ slide) :
    s.sid < nextSid slide := by
  unfold nextSid
  have h1 : s.sid ≤ (slide.map (fun x => x.sid)).foldl Nat.max 0 :=
    le_foldl_max _ 0 s.sid (List.mem_map_of_mem _ hs)
  omega

/-- Identity distinctness facts from a `Nodup` slide split around `s`. -/
theorem slide_sid_split {L1 L2 : List PShape} {s : PShape}
    (hnd : ((L1 ++ s :: L2).map (fun x => x.sid)).Nodup) :
    (∀ x ∈ L1, x.sid ≠ s.sid) ∧ (∀ x ∈ L2, x.sid ≠ s.sid) := by
  rw [List.map_append, List.map_cons] at hnd
  rcases List.nodup_append.mp hnd with ⟨_, hcons, hdisj⟩
  have hnot2 : s.sid ∉ L2.map (fun x => x.sid) := (List.nodup_cons.mp hcons).1
  constructor
  · intro x hx he
    exact hdisj (he ▸ List.mem_map_of_mem _ hx) (List.mem_cons_self _ _)
  · intro x hx he
    exact hnot2 (he ▸ List.mem_map_of_mem _ hx)

/-- A shape on which the loop body is a no-op survives `processSlide`. -/
theorem processSlide_keep {env : Env} {m : List (Str × Str)} {oh : List Hash}
    {nl : Bytes} {slide : List PShape} {s : PShape}
    (hnd : (slide.map (fun x => x.sid)).Nodup) (hs : s ∈ slide)
    (hid : ∀ st, slideStep env m oh nl st s = st) :
    s ∈ processSlide env m oh nl slide := by
  unfold processSlide
  obtain ⟨L1, L2, hsplit⟩ := List.append_of_mem hs
  have hnd2 : ((L1 ++ s :: L2).map (fun x => x.sid)).Nodup := by
    rw [← hsplit]; exact hnd
  obtain ⟨h1, h2⟩ := slide_sid_split hnd2
  rw [hsplit, List.foldl_append, List.foldl_cons, hid]
  have hmem0 : (⟨s.sid, s.kind⟩ : PShape) ∈ L1 ++ s :: L2 := by
    rw [← hsplit]
    exact hs
  have hmem1 : (⟨s.sid, s.kind⟩ : PShape)
      ∈ (L1.foldl (fun a x => slideStep env m oh nl a x)
          (L1 ++ s :: L2, nextSid (L1 ++ s :: L2))).1 :=
    pptx_mem_fold env m oh nl L1 _ s.sid s.kind hmem0 h1
  exact pptx_mem_fold env m oh nl L2 _ s.sid s.kind hmem1 h2

/-- A matched picture shape is removed and a picture with the new logo
bytes and the captured geometry is inserted on the same slide. -/
theorem processSlide_match {env : Env} {m : List (Str × Str)} {oh : List Hash}
    {nl : Bytes} {slide : List PShape} {s : PShape} {b : Bytes} {g : Geom}
    {h : Hash} {d : Nat}
    (hnd : (slide.map (fun x => x.sid)).Nodup) (hs : s ∈ slide)
    (hk : s.kind = .pic b g) (hph : env.phash b = some h)
    (hmin : listMin (oh.map (fun o => env.dist h o)) = some d)
    (hd : d ≤ HASH_THRESHOLD) :
    (∃ j, (⟨j, .pic nl g⟩ : PShape) ∈ processSlide env m oh nl slide)
    ∧ ∀ x ∈ processSlide env m oh nl slide, x.sid ≠ s.sid := by
  unfold processSlide
  obtain ⟨L1, L2, hsplit⟩ := List.append_of_mem hs
  have hnd2 : ((L1 ++ s :: L2).map (fun x => x.sid)).Nodup := by
    rw [← hsplit]; exact hnd
  obtain ⟨h1, h2⟩ := slide_sid_split hnd2
  have hslt : s.sid < nextSid (L1 ++ s :: L2) := by
    apply sid_lt_nextSid
    rw [← hsplit]
    exact hs
  have hL2lt : ∀ x ∈ L2, x.sid < nextSid (L1 ++ s :: L2) := by
    intro x hx
    apply sid_lt_nextSid
    exact List.mem_append_right L1 (List.mem_cons_of_mem s hx)
  rw [hsplit, List.foldl_append, List.foldl_cons]
  have hn0 : nextSid (L1 ++ s :: L2)
      ≤ (L1.foldl (fun a x => slideStep env m oh nl a x)
          (L1 ++ s :: L2, nextSid (L1 ++ s :: L2))).2 :=
    pptx_counter_mono env m oh nl L1 (L1 ++ s :: L2, nextSid (L1 ++ s :: L2))
  generalize hmid : L1.foldl (fun a x => slideStep env m oh nl a x)
      (L1 ++ s :: L2, nextSid (L1 ++ s :: L2)) = st1 at hn0 ⊢
  have hstep : slideStep env m oh nl st1 s
      = (removeShape st1.1 s.sid ++ [⟨st1.2, .pic nl g⟩], st1.2 + 1) := by
    simp [slideStep, hk, hph, hmin, hd]
  rw [hstep]
  constructor
  · refine ⟨st1.2, ?_⟩
    refine pptx_mem_fold env m oh nl L2 _ st1.2 (.pic nl g) ?_ ?_
    · exact List.mem_append_right _ (List.mem_singleton.mpr rfl)
    · intro x hx
      have hlt := hL2lt x hx
      omega
  · refine (pptx_fold_notSid env m oh nl L2 _ s.sid ?_ ?_).1
    · intro x hx
      rcases List.mem_append.mp hx with hx1 | hx1
      · unfold removeShape at hx1
        have hcond := List.of_mem_filter hx1
        simpa using hcond
      · rcases List.mem_singleton.mp hx1 with rfl
        show st1.2 ≠ s.sid
        omega
    · show s.sid < st1.2 + 1
      omega

/-! ## Entry lemmas for the xlsx re-zip loop -/

theorem processEntry_filename_meta (env : Env) (oh : List Hash) (nl : Bytes)
    (e : ZEntry) :
    (processEntry env oh nl e).filename = e.filename
    ∧ (processEntry env oh nl e).meta = e.meta := by
  cases hc : strStartsWith e.filename (str "xl/media/") && e.data != [] with
  | false => simp [processEntry, hc]
  | true =>
    cases hph : env.phash e.data with
    | none => simp [processEntry, hc, hph]
    | some h =>
      cases hmin : listMin (oh.map (fun o => env.dist h o)) with
      | none => simp [processEntry, hc, hph, hmin]
      | some d =>
        by_cases hd : d ≤ HASH_THRESHOLD
        · simp [processEntry, hc, hph, hmin, hd]
        · simp [processEntry, hc, hph, hmin, hd]

theorem processEntry_not_candidate (env : Env) (oh : List Hash) (nl : Bytes)
    (e : ZEntry)
    (h : (strStartsWith e.filename (str "xl/media/") && e.data != []) = false) :
    processEntry env oh nl e = e := by
  simp [processEntry, h]

theorem processEntry_match (env : Env) (oh : List Hash) (nl : Bytes) (e : ZEntry)
    {h : Hash} {d : Nat}
    (hc : (strStartsWith e.filename (str "xl/media/") && e.data != []) = true)
    (hph : env.phash e.data = some h)
    (hmin : listMin (oh.map (fun o => env.dist h o)) = some d)
    (hd : d ≤ HASH_THRESHOLD) :
    processEntry env oh nl e = { e with data := nl } := by
  simp [processEntry, hc, hph, hmin, hd]

theorem processEntry_nonmatch (env : Env) (oh : List Hash) (nl : Bytes) (e : ZEntry)
    {h : Hash} {d : Nat}
    (hph : env.phash e.data = some h)
    (hmin : listMin (oh.map (fun o => env.dist h o)) = some d)
    (hd : ¬ d ≤ HASH_THRESHOLD) :
    processEntry env oh nl e = e := by
  cases hc : strStartsWith e.filename (str "xl/media/") && e.data != [] with
  | false => simp [processEntry, hc]
  | true => simp [processEntry, hc, hph, hmin, hd]

theorem process_excel_zip_get (env : Env) (oh : List Hash) (nl : Bytes)
    (ar : List ZEntry) (i : Nat) (e : ZEntry) (h : ar[i]? = some e) :
    (process_excel_zip env oh nl ar)[i]? = some (processEntry env oh nl e) := by
  unfold process_excel_zip
  rw [List.getElem?_map, h]
  rfl

theorem processEntry_empty_refs (env : Env) (nl : Bytes) (e : ZEntry) :
    processEntry env [] nl e = e := by
  cases hc : strStartsWith e.filename (str "xl/media/") && e.data != [] with
  | false => simp [processEntry, hc]
  | true =>
    cases hph : env.phash e.data with
    | none => simp [processEntry, hc, hph]
    | some h => simp [processEntry, hc, hph, listMin]

theorem process_excel_zip_empty_refs (env : Env) (nl : Bytes) (ar : List ZEntry) :
    process_excel_zip env [] nl ar = ar := by
  unfold process_excel_zip
  calc ar.map (fun e => processEntry env [] nl e)
      = ar.map id := List.map_congr_left (fun e _ => processEntry_empty_refs env nl e)
  _ = ar := List.map_id ar

/-! ## Text-substitution lemmas -/

/-- A paragraph whose aggregate text contains the find string but none of
whose runs do is rewritten run-by-run to itself. -/
theorem replacePara_single {f r : Str} {runs : List Str}
    (hagg : containsSub (strJoin runs) f = true)
    (hruns : ∀ t ∈ runs, containsSub t f = false) :
    replacePara [(f, r)] runs = runs := by
  unfold replacePara
  rw [List.foldl_cons, List.foldl_nil]
  unfold paraStep
  simp only [hagg, if_true]
  calc runs.map (fun t => strReplace t f r)
      = runs.map id :=
        List.map_congr_left (fun t ht => strReplace_of_not_contains r (hruns t ht))
  _ = runs := List.map_id runs

/-- A cell whose aggregate text contains the find string collapses to a
single paragraph with a single run. -/
theorem replaceCell_single {f r : Str} {cell : Cell}
    (h : containsSub (cellText cell) f = true) :
    replaceCell [(f, r)] cell = [[strReplace (cellText cell) f r]] := by
  unfold replaceCell
  rw [List.foldl_cons, List.foldl_nil]
  unfold cellStep
  simp [h]

/-- Paragraph substitution preserves the number of runs (it rewrites each
run in place), in contrast to the cell collapse. -/
theorem replacePara_length (m : List (Str × Str)) (runs : List Str) :
    (replacePara m runs).length = runs.length := by
  unfold replacePara
  induction m generalizing runs with
  | nil => rfl
  | cons fr rest ih =>
    rw [List.foldl_cons]
    calc (rest.foldl paraStep (paraStep runs fr)).length
        = (paraStep runs fr).length := ih _
    _ = runs.length := by
        unfold paraStep
        split
        · simp
        · rfl

/-! ## Mapping-parse lemmas -/

theorem splitFirstComma_append (pre post : Str) (h : ∀ c ∈ pre, c ≠ ',') :
    splitFirstComma (pre ++ ',' :: post) = some (pre, post) := by
  induction pre with
  | nil => simp [splitFirstComma]
  | cons c cs ih =>
    have hc : c ≠ ',' := h c (List.mem_cons_self c cs)
    have hcs : ∀ x ∈ cs, x ≠ ',' := fun x hx => h x (List.mem_cons_of_mem c hx)
    simp [splitFirstComma, hc, ih hcs]

theorem splitFirstComma_no_comma (l : Str) (h : ∀ c ∈ l, c ≠ ',') :
    splitFirstComma l = none := by
  induction l with
  | nil => rfl
  | cons c cs ih =>
    have hc : c ≠ ',' := h c (List.mem_cons_self c cs)
    have hcs : ∀ x ∈ cs, x ≠ ',' := fun x hx => h x (List.mem_cons_of_mem c hx)
    simp [splitFirstComma, hc, ih hcs]

theorem optMapM_none {f : Str → Option (Str × Str)} {L : List Str} {x : Str}
    (hx : x ∈ L) (hfx : f x = none) : optMapM f L = none := by
  induction L with
  | nil => cases hx
  | cons y ys ih =>
    rcases List.mem_cons.mp hx with rfl | hx2
    · simp [optMapM, hfx]
    · cases hfy : f y with
      | none => simp [optMapM, hfy]
      | some v => simp [optMapM, hfy, ih hx2]

/-! ## No-op conditions for the pptx loop body -/

theorem slideStep_id_of_nonmatch {env : Env} {m : List (Str × Str)} {oh : List Hash}
    {nl : Bytes} {s : PShape} {b : Bytes} {g : Geom} {h : Hash}
    (hk : s.kind = .pic b g) (hph : env.phash b = some h)
    (hall : ∀ o ∈ oh, HASH_THRESHOLD < env.dist h o) :
    ∀ st, slideStep env m oh nl st s = st := by
  intro st
  cases hlm : listMin (oh.map (fun o => env.dist h o)) with
  | none => simp [slideStep, hk, hph, hlm]
  | some d =>
    have hd : ¬ d ≤ HASH_THRESHOLD := by
      rcases List.mem_map.mp (listMin_mem hlm) with ⟨o, ho, hdo⟩
      have := hall o ho
      omega
    simp [slideStep, hk, hph, hlm, hd]

theorem slideStep_id_of_fail {env : Env} {m : List (Str × Str)} {oh : List Hash}
    {nl : Bytes} {s : PShape} {b : Bytes} {g : Geom}
    (hk : s.kind = .pic b g) (hph : env.phash b = none) :
    ∀ st, slideStep env m oh nl st s = st := by
  intro st
  simp [slideStep, hk, hph]

/-! ## Concrete fixtures used by the witnesses -/

/-- A concrete environment: WMF conversion prepends a `0` byte, the
fingerprint of a blob is its first byte, and the hash distance is the sum. -/
def envW : Env :=
  { wmfConvert := fun b => some (0 :: b),
    phash := fun b => b.head?,
    dist := fun a b => a + b }

def partM : DocPart := ⟨str "/word/media/image1.png", str "image/png", [0]⟩
def partN : DocPart := ⟨str "/word/media/image2.png", str "image/png", [100]⟩
def partW : DocPart := ⟨str "/word/media/image3.wmf", str "image/x-wmf", [5]⟩
def partF : DocPart := ⟨str "/word/media/image4.png", str "image/png", []⟩

def relW : DocRel := ⟨RT_IMAGE, str "/word/media/image1.png"⟩

def geomW : Geom := ⟨1, 2, 3, 4⟩

def entryW : ZEntry := ⟨str "xl/media/image1.png", [0], 8⟩
def entryN : ZEntry := ⟨str "xl/media/image2.png", [100], 9⟩
def entryO : ZEntry := ⟨str "xl/workbook.xml", [1, 2], 3⟩

/-- A two-step environment in which the blob `[9]` opens successfully but
raises during hashing, and the empty blob fails to open. -/
def envE : EnvX :=
  { wmfConvert := fun b => some (0 :: b),
    imageOpen := fun b => match b with | [] => none | _ => some b,
    phashImage := fun img => if img == [9] then none else img.head?,
    dist := fun a b => a + b }

def partH : DocPart := ⟨str "/word/media/image9.png", str "image/png", [9]⟩
def entryH : ZEntry := ⟨str "xl/media/image9.png", [9], 4⟩

/-! ## The claims -/

/-- C1: for every embedded image of a processed document (docx package
part, pptx picture shape, xlsx media entry): if the reference set is
non-empty and the minimum hash distance of the image's fingerprint to the
reference fingerprints is at most `HASH_THRESHOLD` (25), the image's bytes
are replaced by the new logo bytes; if the minimum distance exceeds the
threshold for every reference fingerprint, the image keeps its bytes. -/
theorem C1_threshold_replacement :
    (∀ (env : Env) (oh : List Hash) (nl : Bytes) (rels : List DocRel)
        (store : List DocPart) (p : DocPart) (raw : Bytes) (h : Hash) (d : Nat),
        (store.map (fun q => strToLower q.partname)).Nodup →
        findPart store p.partname = some p →
        strStartsWith p.contentType (str "image/") = true →
        convertedRaw env p = some raw →
        env.phash raw = some h →
        listMin (oh.map (fun o => env.dist h o)) = some d →
        d ≤ HASH_THRESHOLD →
        findPart (replace_images_docx env oh nl rels store) p.partname
          = some ⟨p.partname, str "image/png", nl⟩)
    ∧ (∀ (env : Env) (oh : List Hash) (nl : Bytes) (rels : List DocRel)
        (store : List DocPart) (p : DocPart) (raw : Bytes) (h : Hash),
        (store.map (fun q => strToLower q.partname)).Nodup →
        findPart store p.partname = some p →
        convertedRaw env p = some raw →
        env.phash raw = some h →
        (∀ o ∈ oh, HASH_THRESHOLD < env.dist h o) →
        ∃ q, findPart (replace_images_docx env oh nl rels store) p.partname = some q
          ∧ q.blob = p.blob)
    ∧ (∀ (env : Env) (m : List (Str × Str)) (oh : List Hash) (nl : Bytes)
        (slides : List (List PShape)) (k : Nat) (slide : List PShape)
        (s : PShape) (b : Bytes) (g : Geom) (h : Hash) (d : Nat),
        slides[k]? = some slide →
        (slide.map (fun x => x.sid)).Nodup →
        s ∈ slide → s.kind = .pic b g →
        env.phash b = some h →
        listMin (oh.map (fun o => env.dist h o)) = some d →
        d ≤ HASH_THRESHOLD →
        ∃ out, (process_pptx env m oh nl slides)[k]? = some out
          ∧ (∃ j, (⟨j, .pic nl g⟩ : PShape) ∈ out)
          ∧ ∀ x ∈ out, x.sid ≠ s.sid)
    ∧ (∀ (env : Env) (m : List (Str × Str)) (oh : List Hash) (nl : Bytes)
        (slides : List (List PShape)) (k : Nat) (slide : List PShape)
        (s : PShape) (b : Bytes) (g : Geom) (h : Hash),
        slides[k]? = some slide →
        (slide.map (fun x => x.sid)).Nodup →
        s ∈ slide → s.kind = .pic b g →
        env.phash b = some h →
        (∀ o ∈ oh, HASH_THRESHOLD < env.dist h o) →
        ∃ out, (process_pptx env m oh nl slides)[k]? = some out ∧ s ∈ out)
    ∧ (∀ (env : Env) (oh : List Hash) (nl : Bytes) (ar : List ZEntry)
        (i : Nat) (e : ZEntry) (h : Hash) (d : Nat),
        ar[i]? = some e →
        strStartsWith e.filename (str "xl/media/") = true →
        e.data ≠ [] →
        env.phash e.data = some h →
        listMin (oh.map (fun o => env.dist h o)) = some d →
        (d ≤ HASH_THRESHOLD →
          (process_excel_zip env oh nl ar)[i]? = some { e with data := nl })
        ∧ ((∀ o ∈ oh, HASH_THRESHOLD < env.dist h o) →
          (process_excel_zip env oh nl ar)[i]? = some e)) := by
  refine ⟨?_, ?_, ?_, ?_, ?_⟩
  · intro env oh nl rels store p raw h d hnd hp himg hraw hph hmin hd
    have hm : docxMatch env oh p = true := by
      simp [docxMatch, docxFingerprint, hraw, hph, hmin, himg, hd]
    rw [replace_images_docx_entry hnd hp]
    simp [stepResultPart, hm]
  · intro env oh nl rels store p raw h hnd hp hraw hph hall
    have hm : docxMatch env oh p = false := by
      cases hlm : listMin (oh.map (fun o => env.dist h o)) with
      | none => simp [docxMatch, docxFingerprint, hraw, hph, hlm]
      | some d =>
        have hd : ¬ d ≤ HASH_THRESHOLD := by
          rcases List.mem_map.mp (listMin_mem hlm) with ⟨o, ho, hdo⟩
          have := hall o ho
          omega
        simp [docxMatch, docxFingerprint, hraw, hph, hlm, hd]
    refine ⟨stepResultPart env oh nl p, replace_images_docx_entry hnd hp, ?_⟩
    unfold stepResultPart
    simp only [hm, Bool.false_eq_true, if_false]
    split
    · rfl
    · rfl
  · intro env m oh nl slides k slide s b g h d hsl hnd hs hk hph hmin hd
    obtain ⟨hex, hrem⟩ := processSlide_match hnd hs hk hph hmin hd
    refine ⟨processSlide env m oh nl slide, ?_, hex, hrem⟩
    unfold process_pptx
    rw [List.getElem?_map, hsl]
    rfl
  · intro env m oh nl slides k slide s b g h hsl hnd hs hk hph hall
    refine ⟨processSlide env m oh nl slide, ?_, ?_⟩
    · unfold process_pptx
      rw [List.getElem?_map, hsl]
      rfl
    · exact processSlide_keep hnd hs (slideStep_id_of_nonmatch hk hph hall)
  · intro env oh nl ar i e h d hi hsw hdata hph hmin
    have hc : (strStartsWith e.filename (str "xl/media/") && e.data != []) = true := by
      simp [hsw, hdata]
    constructor
    · intro hd
      rw [process_excel_zip_get env oh nl ar i e hi,
        processEntry_match env oh nl e hc hph hmin hd]
    · intro hall
      have hd : ¬ d ≤ HASH_THRESHOLD := by
        rcases List.mem_map.mp (listMin_mem hmin) with ⟨o, ho, hdo⟩
        have := hall o ho
        omega
      rw [process_excel_zip_get env oh nl ar i e hi,
        processEntry_nonmatch env oh nl e hph hmin hd]

theorem C1_threshold_replacement_witness :
    (findPart (replace_images_docx envW [0] [7] [] [partM]) partM.partname
      = some ⟨partM.partname, str "image/png", [7]⟩)
    ∧ (∃ q, findPart (replace_images_docx envW [0] [7] [] [partN]) partN.partname
        = some q ∧ q.blob = partN.blob)
    ∧ (∃ out, (process_pptx envW [] [0] [7] [[⟨0, .pic [0] geomW⟩]])[0]? = some out
        ∧ (∃ j, (⟨j, .pic [7] geomW⟩ : PShape) ∈ out)
        ∧ ∀ x ∈ out, x.sid ≠ 0)
    ∧ (∃ out, (process_pptx envW [] [0] [7] [[⟨0, .pic [100] geomW⟩]])[0]? = some out
        ∧ (⟨0, .pic [100] geomW⟩ : PShape) ∈ out)
    ∧ ((process_excel_zip envW [0] [7] [entryW])[0]? = some { entryW with data := [7] })
    ∧ ((process_excel_zip envW [0] [7] [entryN])[0]? = some entryN) := by
  refine ⟨?_, ?_, ?_, ?_, ?_, ?_⟩
  · exact C1_threshold_replacement.1 envW [0] [7] [] [partM] partM [0] 0 0
      (by decide) (by decide) (by decide) (by decide) (by decide) (by decide) (by decide)
  · exact C1_threshold_replacement.2.1 envW [0] [7] [] [partN] partN [100] 100
      (by decide) (by decide) (by decide) (by decide) (by decide)
  · exact C1_threshold_replacement.2.2.1 envW [] [0] [7] [[⟨0, .pic [0] geomW⟩]] 0
      [⟨0, .pic [0] geomW⟩] ⟨0, .pic [0] geomW⟩ [0] geomW 0 0
      (by decide) (by decide) (by decide) rfl (by decide) (by decide) (by decide)
  · exact C1_threshold_replacement.2.2.2.1 envW [] [0] [7] [[⟨0, .pic [100] geomW⟩]] 0
      [⟨0, .pic [100] geomW⟩] ⟨0, .pic [100] geomW⟩ [100] geomW 100
      (by decide) (by decide) (by decide) rfl (by decide) (by decide)
  · exact (C1_threshold_replacement.2.2.2.2 envW [0] [7] [entryW] 0 entryW 0 0
      (by decide) (by decide) (by decide) (by decide) (by decide)).1 (by decide)
  · exact (C1_threshold_replacement.2.2.2.2 envW [0] [7] [entryN] 0 entryN 100 100
      (by decide) (by decide) (by decide) (by decide) (by decide)).2 (by decide)

/-- C2 counterexample: a `.wmf` image part whose conversion succeeds but
which is *not* a match (here the reference set is even empty) still has its
stored content type overwritten to `image/png` during fingerprinting
(line 72 of `app.py` runs before the match decision), so enumeration does
mutate the container on a non-matched part. -/
theorem C2_enumeration_counterexample :
    docxMatch envW [] partW = false
    ∧ replace_images_docx envW [] [7] [] [partW]
        = [⟨partW.partname, str "image/png", partW.blob⟩]
    ∧ partW.contentType ≠ str "image/png" := by
  refine ⟨by decide, by decide, by decide⟩

/-- C2 (amended): a part that is not judged a match keeps its bytes, and
keeps its content type as well *except* that an image-typed `.wmf` part
whose conversion succeeds has its content type set to `image/png` during
fingerprinting even without a match. -/
theorem C2_amended_frame :
    ∀ (env : Env) (oh : List Hash) (nl : Bytes) (rels : List DocRel)
      (store : List DocPart) (p : DocPart),
      (store.map (fun q => strToLower q.partname)).Nodup →
      findPart store p.partname = some p →
      docxMatch env oh p = false →
      ∃ q, findPart (replace_images_docx env oh nl rels store) p.partname = some q
        ∧ q.blob = p.blob
        ∧ (q.contentType = p.contentType
           ∨ (strEndsWith (strToLower p.partname) (str ".wmf") = true
              ∧ q.contentType = str "image/png")) := by
  intro env oh nl rels store p hnd hp hm
  refine ⟨stepResultPart env oh nl p, replace_images_docx_entry hnd hp, ?_, ?_⟩
  · unfold stepResultPart
    simp only [hm, Bool.false_eq_true, if_false]
    split
    · rfl
    · rfl
  · unfold stepResultPart
    simp only [hm, Bool.false_eq_true, if_false]
    split
    · rename_i hw
      simp only [wmfConverted, Bool.and_eq_true] at hw
      exact Or.inr ⟨hw.1.2, rfl⟩
    · exact Or.inl rfl

theorem C2_amended_frame_witness :
    ∃ q, findPart (replace_images_docx envW [] [7] [] [partW]) partW.partname = some q
      ∧ q.blob = partW.blob
      ∧ (q.contentType = partW.contentType
         ∨ (strEndsWith (strToLower partW.partname) (str ".wmf") = true
            ∧ q.contentType = str "image/png")) :=
  C2_amended_frame envW [] [7] [] [partW] partW (by decide) (by decide) (by decide)

/-- C3: with an empty reference set (missing/empty/undecodable old-logo
directory) the match decision is always "no match", no image is ever
replaced, and processing is total: docx blobs are all preserved, pptx
picture shapes survive untouched, and the xlsx re-zip is the identity. -/
theorem C3_empty_reference_no_match :
    (∀ (env : Env) (p : DocPart), docxMatch env [] p = false)
    ∧ (∀ (env : Env) (nl : Bytes) (rels : List DocRel) (store : List DocPart),
        partBlobs (replace_images_docx env [] nl rels store) = partBlobs store)
    ∧ (∀ (env : Env) (m : List (Str × Str)) (nl : Bytes) (slide : List PShape)
        (s : PShape) (b : Bytes) (g : Geom),
        (slide.map (fun x => x.sid)).Nodup → s ∈ slide → s.kind = .pic b g →
        s ∈ processSlide env m [] nl slide)
    ∧ (∀ (env : Env) (nl : Bytes) (ar : List ZEntry),
        process_excel_zip env [] nl ar = ar) := by
  refine ⟨fun env p => docxMatch_empty,
    fun env nl rels store => partBlobs_replace_images_empty, ?_,
    fun env nl ar => process_excel_zip_empty_refs env nl ar⟩
  intro env m nl slide s b g hnd hs hk
  apply processSlide_keep hnd hs
  intro st
  cases hph : env.phash b with
  | none => simp [slideStep, hk, hph]
  | some h => simp [slideStep, hk, hph, listMin]

theorem C3_empty_reference_no_match_witness :
    docxMatch envW [] partM = false
    ∧ partBlobs (replace_images_docx envW [] [7] [] [partW]) = partBlobs [partW]
    ∧ (⟨0, .pic [0] geomW⟩ : PShape)
        ∈ processSlide envW [] [] [7] [⟨0, .pic [0] geomW⟩]
    ∧ process_excel_zip envW [] [7] [entryW] = [entryW] := by
  refine ⟨C3_empty_reference_no_match.1 envW partM,
    C3_empty_reference_no_match.2.1 envW [7] [] [partW], ?_,
    C3_empty_reference_no_match.2.2.2 envW [7] [entryW]⟩
  exact C3_empty_reference_no_match.2.2.1 envW [] [7] [⟨0, .pic [0] geomW⟩]
    ⟨0, .pic [0] geomW⟩ [0] geomW (by decide) (by decide) rfl

/-- C4 (code bug): the claim requires every per-image decode, convert, or
hash failure to be caught at the image boundary, but in the docx loop the
`try` of lines 79-83 covers only `Image.open` while `imagehash.phash` on
line 85 runs outside any handler.  At a part whose bytes open successfully
but whose hashing raises, `replace_images_docx` raises, the remaining
images of the document (here a matching part) are never processed, and the
exception escapes to document/batch level.  A decode failure in the same
loop *is* caught, and the pptx and xlsx loops wrap the whole chain in
their `try`, so the same failing image is merely skipped there and the
remaining images are still replaced. -/
theorem C4_hash_failure_escalates :
    replace_images_docxE envE [0] [7] [] [partH, partM] = .error ()
    ∧ replace_images_docxE envE [0] [7] [] [partF, partM]
        = .ok [partF, ⟨partM.partname, str "image/png", [7]⟩]
    ∧ processSlide (EnvX.toEnv envE) [] [0] [7]
        [⟨0, .pic [9] geomW⟩, ⟨1, .pic [0] geomW⟩]
        = [⟨0, .pic [9] geomW⟩, ⟨2, .pic [7] geomW⟩]
    ∧ process_excel_zip (EnvX.toEnv envE) [0] [7] [entryH, entryW]
        = [entryH, { entryW with data := [7] }] := by
  refine ⟨rfl, rfl, by decide, by decide⟩

/-- C5: a matched picture shape is replaced by a picture shape inserted on
the same slide whose geometry (left, top, width, height) is exactly the
geometry captured from the original shape before its removal. -/
theorem C5_geometry_preserved :
    ∀ (env : Env) (m : List (Str × Str)) (oh : List Hash) (nl : Bytes)
      (slides : List (List PShape)) (k : Nat) (slide : List PShape)
      (s : PShape) (b : Bytes) (g : Geom) (h : Hash) (d : Nat),
      slides[k]? = some slide →
      (slide.map (fun x => x.sid)).Nodup →
      s ∈ slide → s.kind = .pic b g →
      env.phash b = some h →
      listMin (oh.map (fun o => env.dist h o)) = some d →
      d ≤ HASH_THRESHOLD →
      ∃ out j, (process_pptx env m oh nl slides)[k]? = some out
        ∧ (⟨j, .pic nl g⟩ : PShape) ∈ out := by
  intro env m oh nl slides k slide s b g h d hsl hnd hs hk hph hmin hd
  obtain ⟨⟨j, hj⟩, _⟩ := processSlide_match hnd hs hk hph hmin hd
  refine ⟨processSlide env m oh nl slide, j, ?_, hj⟩
  unfold process_pptx
  rw [List.getElem?_map, hsl]
  rfl

theorem C5_geometry_preserved_witness :
    ∃ out j, (process_pptx envW [] [0] [7] [[⟨0, .pic [0] geomW⟩]])[0]? = some out
      ∧ (⟨j, .pic [7] geomW⟩ : PShape) ∈ out :=
  C5_geometry_preserved envW [] [0] [7] [[⟨0, .pic [0] geomW⟩]] 0
    [⟨0, .pic [0] geomW⟩] ⟨0, .pic [0] geomW⟩ [0] geomW 0 0
    (by decide) (by decide) (by decide) rfl (by decide) (by decide) (by decide)

/-- C6: on a match the applier overwrites the part's blob and content type,
and every relationship target that points at this part name (the store
entry named by the relationship's target) holds the new blob and content
type as well, so all reference paths to the image agree. -/
theorem C6_rel_target_consistency :
    ∀ (env : Env) (oh : List Hash) (nl : Bytes) (rels : List DocRel)
      (store : List DocPart) (p : DocPart),
      (store.map (fun q => strToLower q.partname)).Nodup →
      findPart store p.partname = some p →
      docxMatch env oh p = true →
      findPart (replace_images_docx env oh nl rels store) p.partname
        = some ⟨p.partname, str "image/png", nl⟩
      ∧ ∀ rel ∈ rels, strToLower rel.targetPartname = strToLower p.partname →
          ∀ q, findPart (replace_images_docx env oh nl rels store)
              rel.targetPartname = some q →
            q.blob = nl ∧ q.contentType = str "image/png" := by
  intro env oh nl rels store p hnd hp hm
  have hmain : findPart (replace_images_docx env oh nl rels store) p.partname
      = some ⟨p.partname, str "image/png", nl⟩ := by
    rw [replace_images_docx_entry hnd hp]
    simp [stepResultPart, hm]
  refine ⟨hmain, ?_⟩
  intro rel hrel hlow q hq
  have hqpn : q.partname = rel.targetPartname := findPart_partname hq
  have hqmem : q ∈ replace_images_docx env oh nl rels store := findPart_mem hq
  have hin : rel.targetPartname ∈ partNames (replace_images_docx env oh nl rels store) := by
    unfold partNames
    exact hqpn ▸ List.mem_map_of_mem _ hqmem
  rw [partNames_replace_images] at hin
  unfold partNames at hin
  rcases List.mem_map.mp hin with ⟨q0, hq0mem, hq0pn⟩
  have hpmem : p ∈ store := findPart_mem hp
  have heqp : q0 = p :=
    List.inj_on_of_nodup_map hnd hq0mem hpmem (by rw [hq0pn, hlow])
  have hname : rel.targetPartname = p.partname := by rw [← hq0pn, heqp]
  rw [hname, hmain] at hq
  injection hq with hq2
  rw [← hq2]
  exact ⟨rfl, rfl⟩

theorem C6_rel_target_consistency_witness :
    findPart (replace_images_docx envW [0] [7] [relW] [partM]) partM.partname
      = some ⟨partM.partname, str "image/png", [7]⟩
    ∧ ∀ q, findPart (replace_images_docx envW [0] [7] [relW] [partM])
        relW.targetPartname = some q →
      q.blob = [7] ∧ q.contentType = str "image/png" := by
  have h := C6_rel_target_consistency envW [0] [7] [relW] [partM] partM
    (by decide) (by decide) (by decide)
  exact ⟨h.1, h.2 relW (List.mem_cons_self relW []) (by decide)⟩

/-- C7: paragraph text substitution is applied run-by-run after checking
the paragraph's aggregate text, so an occurrence of the find string that is
split across a run boundary (present in the aggregate text but in no single
run) leaves the paragraph unchanged. -/
theorem C7_run_boundary_missed :
    ∀ (doc : DocxDoc) (i : Nat) (runs : List Str) (f r : Str),
      doc.paragraphs[i]? = some runs →
      containsSub (strJoin runs) f = true →
      (∀ t ∈ runs, containsSub t f = false) →
      (replace_text_docx [(f, r)] doc).paragraphs[i]? = some runs := by
  intro doc i runs f r hi hagg hruns
  show (doc.paragraphs.map (fun runs => replacePara [(f, r)] runs))[i]? = some runs
  rw [List.getElem?_map, hi]
  simp [replacePara_single hagg hruns]

theorem C7_run_boundary_missed_witness :
    (replace_text_docx [(str "AGI", str "NEC")]
      ⟨[[str "AG", str "I"]], []⟩).paragraphs[0]?
      = some [str "AG", str "I"] :=
  C7_run_boundary_missed ⟨[[str "AG", str "I"]], []⟩ 0 [str "AG", str "I"]
    (str "AGI") (str "NEC") (by decide) (by decide) (by decide)

/-- C8: in the xlsx re-zip, exactly the entries under `xl/media/` with
non-empty bytes are candidates; every entry keeps its name and compression
metadata, and every non-candidate entry is copied completely unchanged. -/
theorem C8_archive_copy_frame :
    ∀ (env : Env) (oh : List Hash) (nl : Bytes) (ar : List ZEntry)
      (i : Nat) (e : ZEntry),
      ar[i]? = some e →
      (process_excel_zip env oh nl ar)[i]? = some (processEntry env oh nl e)
      ∧ (processEntry env oh nl e).filename = e.filename
      ∧ (processEntry env oh nl e).meta = e.meta
      ∧ ((strStartsWith e.filename (str "xl/media/") && e.data != []) = false →
          processEntry env oh nl e = e) := by
  intro env oh nl ar i e hi
  exact ⟨process_excel_zip_get env oh nl ar i e hi,
    (processEntry_filename_meta env oh nl e).1,
    (processEntry_filename_meta env oh nl e).2,
    fun h => processEntry_not_candidate env oh nl e h⟩

theorem C8_archive_copy_frame_witness :
    (process_excel_zip envW [0] [7] [entryO])[0]?
      = some (processEntry envW [0] [7] entryO)
    ∧ (processEntry envW [0] [7] entryO).filename = entryO.filename
    ∧ (processEntry envW [0] [7] entryO).meta = entryO.meta
    ∧ ((strStartsWith entryO.filename (str "xl/media/") && entryO.data != []) = false →
        processEntry envW [0] [7] entryO = entryO) :=
  C8_archive_copy_frame envW [0] [7] [entryO] 0 entryO (by decide)

/-- C9: the mapping table splits every kept line at its first comma only —
the find string is the comma-free piece before it and the replace string is
everything after it (commas allowed) — and any non-blank line with no comma
makes the whole parse fail. -/
theorem C9_mapping_parse :
    (∀ pre post : Str, (∀ c ∈ pre, c ≠ ',') →
        splitFirstComma (pre ++ ',' :: post) = some (pre, post))
    ∧ (∀ text line : Str,
        line ∈ (splitLines text).filter (fun l => !(strStrip l).isEmpty) →
        (∀ c ∈ line, c ≠ ',') →
        parse_mappings text = none) := by
  constructor
  · exact fun pre post h => splitFirstComma_append pre post h
  · intro text line hmem hnc
    unfold parse_mappings
    rw [optMapM_none hmem (splitFirstComma_no_comma line hnc)]
    rfl

theorem C9_mapping_parse_witness :
    splitFirstComma (str "AGI" ++ ',' :: str "NEC, Inc")
      = some (str "AGI", str "NEC, Inc")
    ∧ parse_mappings (str "hello") = none := by
  constructor
  · exact C9_mapping_parse.1 (str "AGI") (str "NEC, Inc") (by decide)
  · exact C9_mapping_parse.2 (str "hello") (str "hello") (by decide) (by decide)

/-- C10: a table cell whose aggregate text contains a find string is
reassigned as one single string — the cell collapses to a single paragraph
holding a single run — while paragraph substitution keeps the run count. -/
theorem C10_cell_collapse :
    (∀ (f r : Str) (cell : Cell),
        containsSub (cellText cell) f = true →
        replaceCell [(f, r)] cell = [[strReplace (cellText cell) f r]])
    ∧ (∀ (m : List (Str × Str)) (doc : DocxDoc),
        (replace_text_docx m doc).tables
          = doc.tables.map (fun t => t.map (fun row => row.map (fun c => replaceCell m c))))
    ∧ (∀ (m : List (Str × Str)) (runs : List Str),
        (replacePara m runs).length = runs.length) := by
  exact ⟨fun f r cell h => replaceCell_single h, fun m doc => rfl, replacePara_length⟩

theorem C10_cell_collapse_witness :
    replaceCell [(str "AGI", str "NEC")] [[str "AG", str "I"]]
      = [[strReplace (cellText [[str "AG", str "I"]]) (str "AGI") (str "NEC")]] :=
  C10_cell_collapse.1 (str "AGI") (str "NEC") [[str "AG", str "I"]] (by decide)
